import Mathlib

/-!
Verification of the traversal-and-copy engine of `src/main.py`: a program
that walks a source directory tree (`read_folder`), classifies each file by
the suffix of its name, and copies it into a bucket subdirectory of a target
root named after that suffix (`copy_file`, fanned out over all files by
`process_files`, driven by `main`).

The embedding is shallow: filenames are lists of characters, paths are lists
of name components, file contents are lists of bytes, and the filesystem the
copies act on is an explicit record of existing directories and files.  The
event loop's fan-out (`asyncio.gather`) is modelled as one serialization of
the per-file tasks; each task's I/O failures are injected through an explicit
failure mode carried by the file, mirroring the exception paths of the code.
-/

namespace FileSorter

/-- A filename, as the list of its characters. -/
abbrev Filename := List Char

/-- A filesystem path: the list of its name components. -/
abbrev FsPath := List Filename

/-- File content, as a list of bytes. -/
abbrev Content := List Nat

/-- The index of the last `.` in a list of characters (Python's `str.rfind`),
or `none` when there is no dot. -/
def rfindDot : List Char → Option Nat
  | [] => none
  | c :: cs =>
    match rfindDot cs with
    | some i => some (i + 1)
    | none => if c = '.' then some 0 else none

/-- `pathlib.PurePath.suffix` on a filename: `name[i:]` when `i`, the index of
the last dot, satisfies `0 < i < len(name) - 1`, and the empty string
otherwise (so names with no dot, names ending in a dot, and dotfiles whose
only dot is the first character, all have an empty suffix). -/
def pySuffix (name : Filename) : Filename :=
  match rfindDot name with
  | none => []
  | some i => if 0 < i ∧ i + 1 < name.length then name.drop i else []

/-- Lines 53-57 of `copy_file`: `file_path.suffix.lstrip('.')`, replaced by
the sentinel bucket name `no_extension` when the result is empty. -/
def file_ext (name : Filename) : Filename :=
  let e := (pySuffix name).dropWhile (fun c => c = '.')
  if e = [] then "no_extension".toList else e

/-- The ExtensionKey exactly as claim C3 words it: the substring after the
last `.` of the filename, or `no_extension` when the filename has no `.` or
that substring is empty. -/
def claimExtKey (name : Filename) : Filename :=
  match rfindDot name with
  | none => "no_extension".toList
  | some i =>
    if name.drop (i + 1) = [] then "no_extension".toList else name.drop (i + 1)

/-- The amended characterization of the ExtensionKey: as `claimExtKey`, but
additionally `no_extension` when the last dot is the filename's first
character (pathlib gives dotfiles such as `.bashrc` an empty suffix). -/
def amendedExtKey (name : Filename) : Filename :=
  match rfindDot name with
  | none => "no_extension".toList
  | some i =>
    if i = 0 ∨ name.drop (i + 1) = [] then "no_extension".toList
    else name.drop (i + 1)

theorem rfindDot_lt_length {cs : List Char} {i : Nat} (h : rfindDot cs = some i) :
    i < cs.length := by
  induction cs generalizing i with
  | nil => simp [rfindDot] at h
  | cons c cs ih =>
    rw [rfindDot] at h
    cases hr : rfindDot cs with
    | some j =>
      rw [hr] at h
      cases h
      exact Nat.succ_lt_succ (ih hr)
    | none =>
      rw [hr] at h
      by_cases hc : c = '.'
      · simp [hc] at h
        simp [← h]
      · simp [hc] at h

theorem rfindDot_drop {cs : List Char} {i : Nat} (h : rfindDot cs = some i) :
    cs.drop i = '.' :: cs.drop (i + 1) := by
  induction cs generalizing i with
  | nil => simp [rfindDot] at h
  | cons c cs ih =>
    rw [rfindDot] at h
    cases hr : rfindDot cs with
    | some j =>
      rw [hr] at h
      cases h
      simpa using ih hr
    | none =>
      rw [hr] at h
      by_cases hc : c = '.'
      · simp [hc] at h
        simp [← h, hc]
      · simp [hc] at h

theorem rfindDot_none_no_dot {cs : List Char} (h : rfindDot cs = none) :
    '.' ∉ cs := by
  induction cs with
  | nil => simp
  | cons c cs ih =>
    rw [rfindDot] at h
    cases hr : rfindDot cs with
    | some j => rw [hr] at h; cases h
    | none =>
      rw [hr] at h
      by_cases hc : c = '.'
      · simp [hc] at h
      · simp only [List.mem_cons, not_or]
        exact ⟨fun hh => hc hh.symm, ih hr⟩

theorem rfindDot_no_dot_after {cs : List Char} {i : Nat} (h : rfindDot cs = some i) :
    '.' ∉ cs.drop (i + 1) := by
  induction cs generalizing i with
  | nil => simp [rfindDot] at h
  | cons c cs ih =>
    rw [rfindDot] at h
    cases hr : rfindDot cs with
    | some j =>
      rw [hr] at h
      cases h
      simpa using ih hr
    | none =>
      rw [hr] at h
      by_cases hc : c = '.'
      · simp [hc] at h
        simpa [← h] using rfindDot_none_no_dot hr
      · simp [hc] at h

theorem dropWhile_dot_of_no_dot {l : List Char} (h : '.' ∉ l) :
    l.dropWhile (fun c => c = '.') = l := by
  cases l with
  | nil => rfl
  | cons c t =>
    have hc : ¬(c = '.') := fun hcc => h (hcc ▸ List.mem_cons_self c t)
    simp [List.dropWhile, hc]

/-- The key computed by `copy_file` agrees everywhere with the amended
characterization. -/
theorem file_ext_amended_aux (name : Filename) :
    file_ext name = amendedExtKey name := by
  unfold file_ext pySuffix amendedExtKey
  cases h : rfindDot name with
  | none => simp
  | some i =>
    dsimp only
    by_cases hc : 0 < i ∧ i + 1 < name.length
    · have hdrop := rfindDot_drop h
      have hafter := rfindDot_no_dot_after h
      have hne : name.drop (i + 1) ≠ [] := by
        intro hnil
        rw [List.drop_eq_nil_iff] at hnil
        omega
      rw [if_pos hc, hdrop]
      have hdw : List.dropWhile (fun c => decide (c = '.')) ('.' :: name.drop (i + 1)) =
          name.drop (i + 1) := by
        rw [List.dropWhile_cons]
        simp only [decide_eq_true_eq, if_pos rfl]
        exact dropWhile_dot_of_no_dot hafter
      rw [hdw]
      have hi0 : ¬(i = 0 ∨ name.drop (i + 1) = []) := by
        push_neg
        exact ⟨by omega, hne⟩
      rw [if_neg hne, if_neg hi0]
    · have hlt := rfindDot_lt_length h
      rw [if_neg hc]
      push_neg at hc
      have hcond : i = 0 ∨ name.drop (i + 1) = [] := by
        by_cases hi : i = 0
        · exact Or.inl hi
        · exact Or.inr (List.drop_eq_nil_iff.mpr (hc (Nat.pos_of_ne_zero hi)))
      rw [if_pos hcond]
      simp

/-- C3, counterexample: for the dotfile `.bashrc` the claim's characterization
gives the bucket `bashrc`, but the code (via pathlib's suffix rule, which
requires the last dot not to be the first character) gives `no_extension`. -/
theorem file_ext_claim_counterexample :
    file_ext ".bashrc".toList ≠ claimExtKey ".bashrc".toList ∧
    file_ext ".bashrc".toList = "no_extension".toList ∧
    claimExtKey ".bashrc".toList = "bashrc".toList := by
  refine ⟨?_, ?_, ?_⟩ <;> decide

/-- C3 (amended): the ExtensionKey computed by `copy_file` is the substring
after the last `.` of the filename, and is the sentinel `no_extension`
exactly when the filename has no `.`, the suffix after the last `.` is empty
(trailing-dot names), or the last `.` is the filename's first character
(dotfiles such as `.bashrc`). -/
theorem file_ext_spec (name : Filename) :
    file_ext name = amendedExtKey name :=
  file_ext_amended_aux name

/-- C10: the extension classification preserves the case of the filename
suffix: the bucket is always either the sentinel or a verbatim suffix of the
filename's characters, and the sample names `a.TXT` and `b.txt` land in the
two distinct buckets `TXT` and `txt`. -/
theorem file_ext_preserves_case :
    (∀ name : Filename,
        file_ext name = "no_extension".toList ∨ ∃ i, file_ext name = name.drop i) ∧
    file_ext "a.TXT".toList = "TXT".toList ∧
    file_ext "b.txt".toList = "txt".toList ∧
    "TXT".toList ≠ "txt".toList := by
  refine ⟨fun name => ?_, by decide, by decide, by decide⟩
  rw [file_ext_amended_aux]
  unfold amendedExtKey
  cases h : rfindDot name with
  | none => left; rfl
  | some i =>
    dsimp only
    by_cases hc : i = 0 ∨ name.drop (i + 1) = []
    · left; rw [if_pos hc]
    · right; exact ⟨i + 1, by rw [if_neg hc]⟩

/-- A directory-tree entry as `os.scandir` reports it.  `file` is a regular
file (a symbolic link to a regular file behaves identically under the code's
`entry.is_file()`, which follows links, and is folded into this case);
`dir` is a filesystem-native subdirectory, with a flag recording whether
scanning it succeeds; `symlinkDir` is a symbolic link to a directory, for
which `entry.is_file()` is false and `entry.is_dir()` is TRUE (both follow
links by default), carrying the children of its target; `other` is an entry
that is neither a file nor a directory (socket, device, broken link). -/
inductive Entry where
  | file (name : Filename) (content : Content) : Entry
  | dir (name : Filename) (readable : Bool) (children : List Entry) : Entry
  | symlinkDir (name : Filename) (children : List Entry) : Entry
  | other (name : Filename) : Entry

/-- The name component of an entry. -/
def Entry.nameOf : Entry → Filename
  | .file n _ => n
  | .dir n _ _ => n
  | .symlinkDir n _ => n
  | .other n => n

/-- A file discovered by the walk: its full path, its final name component
(`file_path.name`) and its byte content. -/
structure FoundFile where
  path : FsPath
  name : Filename
  content : Content
deriving DecidableEq

mutual
/-- Embedding of `read_folder` (lines 18-41): `p` is the full path of the
entry being scanned.  `os.scandir` succeeds on a readable directory and, the
call following symbolic links, on a symbolic link to one; on anything else it
raises, which the `except` branch converts to one logged path.  The first
component is the list of discovered files, the second the logged paths. -/
def read_folder (p : FsPath) : Entry → List FoundFile × List FsPath
  | .dir _ readable cs => if readable then scan_entries p cs else ([], [p])
  | .symlinkDir _ cs => scan_entries p cs
  | _ => ([], [p])

/-- One iteration of `read_folder`'s `for entry in os.scandir(...)` loop: a
regular file is collected (`entry.is_file()`), a directory or a symbolic link
to one (`entry.is_dir()` is true for both, the calls following links by
default) is recursed into via `read_folder`, anything else is skipped. -/
def walk_child (p : FsPath) : Entry → List FoundFile × List FsPath
  | .file n c => ([⟨p ++ [n], n, c⟩], [])
  | .dir n readable cs => if readable then scan_entries (p ++ [n]) cs else ([], [p ++ [n]])
  | .symlinkDir n cs => scan_entries (p ++ [n]) cs
  | .other _ => ([], [])

/-- The whole `for` loop: the per-entry results in scan order. -/
def scan_entries (p : FsPath) : List Entry → List FoundFile × List FsPath
  | [] => ([], [])
  | e :: rest =>
    let r1 := walk_child p e
    let r2 := scan_entries p rest
    (r1.1 ++ r2.1, r1.2 ++ r2.2)
end

/-- `walk_child` on a directory-like child is just `read_folder` at the
child's path, as in the code. -/
theorem walk_child_eq_read_folder (p : FsPath) (e : Entry) :
    walk_child p e =
      match e with
      | .file n c => ([⟨p ++ [n], n, c⟩], [])
      | .other _ => ([], [])
      | e => read_folder (p ++ [e.nameOf]) e := by
  cases e <;> rfl

mutual
/-- The Walker as claim C2 words it: the regular files reachable from the
tree by descending only into filesystem-native subdirectories, never through
symbolic links to directories. -/
def claimWalk (p : FsPath) : Entry → List FsPath
  | .dir _ readable cs => if readable then claimWalkList p cs else []
  | _ => []

/-- Children traversal of `claimWalk`. -/
def claimWalkList (p : FsPath) : List Entry → List FsPath
  | [] => []
  | .file n _ :: rest => (p ++ [n]) :: claimWalkList p rest
  | .dir n readable cs :: rest =>
    claimWalk (p ++ [n]) (.dir n readable cs) ++ claimWalkList p rest
  | .symlinkDir _ _ :: rest => claimWalkList p rest
  | .other _ :: rest => claimWalkList p rest
end

/-- `ReachesFile p t q`: scanning entry `t`, whose own full path is `p`, can
reach a regular file whose full path is `q`, descending into subdirectories
that scan successfully and into symbolic links to directories (the code's
`entry.is_dir()` follows links).  Files directly inside an unreadable
directory, and everything below entries that are neither files nor
directories, are not reached. -/
inductive ReachesFile : FsPath → Entry → FsPath → Prop where
  | dirFile {p : FsPath} {n m : Filename} {c : Content} {cs : List Entry}
      (hm : Entry.file m c ∈ cs) :
      ReachesFile p (.dir n true cs) (p ++ [m])
  | dirDescend {p : FsPath} {n : Filename} {cs : List Entry} {e : Entry} {q : FsPath}
      (hm : e ∈ cs) (hr : ReachesFile (p ++ [e.nameOf]) e q) :
      ReachesFile p (.dir n true cs) q
  | symFile {p : FsPath} {n m : Filename} {c : Content} {cs : List Entry}
      (hm : Entry.file m c ∈ cs) :
      ReachesFile p (.symlinkDir n cs) (p ++ [m])
  | symDescend {p : FsPath} {n : Filename} {cs : List Entry} {e : Entry} {q : FsPath}
      (hm : e ∈ cs) (hr : ReachesFile (p ++ [e.nameOf]) e q) :
      ReachesFile p (.symlinkDir n cs) q

/-- No file is reached from an entry that is not directory-like. -/
theorem not_reaches_of_file {p q : FsPath} {n : Filename} {c : Content} :
    ¬ ReachesFile p (.file n c) q := fun h => by cases h

/-- No file is reached from a socket, device or broken link. -/
theorem not_reaches_of_other {p q : FsPath} {n : Filename} :
    ¬ ReachesFile p (.other n) q := fun h => by cases h

/-- No file is reached from an unreadable directory. -/
theorem not_reaches_of_unreadable {p q : FsPath} {n : Filename} {cs : List Entry} :
    ¬ ReachesFile p (.dir n false cs) q := fun h => by cases h

/-- The per-child reachability disjunction is exactly reachability from a
readable directory with those children. -/
theorem reaches_dir_iff (p : FsPath) (n : Filename) (cs : List Entry) (q : FsPath) :
    (∃ e ∈ cs, (∃ m c, e = Entry.file m c ∧ q = p ++ [m]) ∨
        ReachesFile (p ++ [e.nameOf]) e q) ↔
      ReachesFile p (.dir n true cs) q := by
  constructor
  · rintro ⟨e, he, ⟨m, c, rfl, rfl⟩ | hr⟩
    · exact ReachesFile.dirFile he
    · exact ReachesFile.dirDescend he hr
  · intro hr
    cases hr with
    | dirFile hm => exact ⟨_, hm, Or.inl ⟨_, _, rfl, rfl⟩⟩
    | dirDescend hm hr => exact ⟨_, hm, Or.inr hr⟩

/-- The per-child reachability disjunction is exactly reachability through a
symbolic link to a directory with those children. -/
theorem reaches_symlink_iff (p : FsPath) (n : Filename) (cs : List Entry) (q : FsPath) :
    (∃ e ∈ cs, (∃ m c, e = Entry.file m c ∧ q = p ++ [m]) ∨
        ReachesFile (p ++ [e.nameOf]) e q) ↔
      ReachesFile p (.symlinkDir n cs) q := by
  constructor
  · rintro ⟨e, he, ⟨m, c, rfl, rfl⟩ | hr⟩
    · exact ReachesFile.symFile he
    · exact ReachesFile.symDescend he hr
  · intro hr
    cases hr with
    | symFile hm => exact ⟨_, hm, Or.inl ⟨_, _, rfl, rfl⟩⟩
    | symDescend hm hr => exact ⟨_, hm, Or.inr hr⟩

mutual
/-- The paths of the files `read_folder` returns are exactly those
`ReachesFile` reaches. -/
theorem read_folder_mem_aux (p : FsPath) (t : Entry) (q : FsPath) :
    q ∈ (read_folder p t).1.map FoundFile.path ↔ ReachesFile p t q := by
  cases t with
  | file n c =>
    rw [show read_folder p (Entry.file n c) = ([], [p]) from rfl]
    simp only [List.map_nil, List.not_mem_nil, false_iff]
    exact not_reaches_of_file
  | dir n readable cs =>
    cases readable with
    | false =>
      rw [read_folder]
      simp only [if_neg Bool.false_ne_true, List.map_nil, List.not_mem_nil, false_iff]
      exact not_reaches_of_unreadable
    | true =>
      rw [read_folder, if_pos rfl, scan_entries_mem_aux p cs q]
      exact reaches_dir_iff p n cs q
  | symlinkDir n cs =>
    rw [read_folder, scan_entries_mem_aux p cs q]
    exact reaches_symlink_iff p n cs q
  | other n =>
    rw [show read_folder p (Entry.other n) = ([], [p]) from rfl]
    simp only [List.map_nil, List.not_mem_nil, false_iff]
    exact not_reaches_of_other

/-- Files collected from one child of the scan loop. -/
theorem walk_child_mem_aux (p : FsPath) (e : Entry) (q : FsPath) :
    q ∈ (walk_child p e).1.map FoundFile.path ↔
      ((∃ m c, e = Entry.file m c ∧ q = p ++ [m]) ∨
        ReachesFile (p ++ [e.nameOf]) e q) := by
  cases e with
  | file n c =>
    rw [walk_child]
    simp only [List.map_cons, List.map_nil, List.mem_singleton]
    constructor
    · intro hq
      exact Or.inl ⟨n, c, rfl, hq⟩
    · rintro (⟨m, c', heq, rfl⟩ | hr)
      · cases heq; rfl
      · exact absurd hr not_reaches_of_file
  | dir n readable cs =>
    cases readable with
    | false =>
      rw [walk_child]
      simp only [if_neg Bool.false_ne_true, List.map_nil, List.not_mem_nil, false_iff]
      rintro (⟨m, c', heq, rfl⟩ | hr)
      · cases heq
      · exact absurd hr not_reaches_of_unreadable
    | true =>
      rw [walk_child, if_pos rfl, scan_entries_mem_aux (p ++ [n]) cs q]
      rw [reaches_dir_iff (p ++ [n]) n cs q]
      constructor
      · exact Or.inr
      · rintro (⟨m, c', heq, rfl⟩ | hr)
        · cases heq
        · exact hr
  | symlinkDir n cs =>
    rw [walk_child, scan_entries_mem_aux (p ++ [n]) cs q]
    rw [reaches_symlink_iff (p ++ [n]) n cs q]
    constructor
    · exact Or.inr
    · rintro (⟨m, c', heq, rfl⟩ | hr)
      · cases heq
      · exact hr
  | other n =>
    rw [walk_child]
    simp only [List.map_nil, List.not_mem_nil, false_iff]
    rintro (⟨m, c', heq, rfl⟩ | hr)
    · cases heq
    · exact absurd hr not_reaches_of_other

/-- Files collected by the whole scan loop, child by child. -/
theorem scan_entries_mem_aux (p : FsPath) (cs : List Entry) (q : FsPath) :
    q ∈ (scan_entries p cs).1.map FoundFile.path ↔
      (∃ e ∈ cs, (∃ m c, e = Entry.file m c ∧ q = p ++ [m]) ∨
        ReachesFile (p ++ [e.nameOf]) e q) := by
  cases cs with
  | nil =>
    rw [scan_entries]
    simp
  | cons e rest =>
    rw [scan_entries]
    simp only [List.map_append, List.mem_append]
    rw [walk_child_mem_aux p e q, scan_entries_mem_aux p rest q]
    constructor
    · rintro (h | ⟨e', he', h'⟩)
      · exact ⟨e, List.mem_cons_self e rest, h⟩
      · exact ⟨e', List.mem_cons_of_mem e he', h'⟩
    · rintro ⟨e', he', h'⟩
      rcases List.mem_cons.mp he' with rfl | he''
      · exact Or.inl h'
      · exact Or.inr ⟨e', he'', h'⟩
end

/-- C2, counterexample: on a source directory containing one symbolic link to
a directory that holds the regular file `a.txt`, `read_folder` follows the
link (`entry.is_dir()` follows symbolic links by default) and returns that
file, while the claim's walk — which never descends through symbolic links —
returns nothing.  The two path sets differ, refuting the claim. -/
theorem read_folder_symlink_counterexample :
    ((read_folder ["r".toList]
        (Entry.dir "r".toList true
          [Entry.symlinkDir "l".toList [Entry.file "a.txt".toList [1]]])).1.map
      FoundFile.path ≠
      claimWalk ["r".toList]
        (Entry.dir "r".toList true
          [Entry.symlinkDir "l".toList [Entry.file "a.txt".toList [1]]])) ∧
    ((read_folder ["r".toList]
        (Entry.dir "r".toList true
          [Entry.symlinkDir "l".toList [Entry.file "a.txt".toList [1]]])).1.map
      FoundFile.path = [["r".toList, "l".toList, "a.txt".toList]]) ∧
    (claimWalk ["r".toList]
        (Entry.dir "r".toList true
          [Entry.symlinkDir "l".toList [Entry.file "a.txt".toList [1]]]) =
      []) := by
  refine ⟨?_, ?_, ?_⟩ <;> decide

/-- C2 (amended): the set of paths returned by `read_folder` equals the set
of regular files reachable by descending into filesystem-native
subdirectories AND into symbolic links to directories (`os.scandir`'s
`entry.is_dir()` follows symbolic links by default, so the code recurses into
both); entries that are neither regular files nor directories are omitted,
and nothing below an unreadable directory is returned. -/
theorem read_folder_files_spec (p : FsPath) (t : Entry) (q : FsPath) :
    q ∈ (read_folder p t).1.map FoundFile.path ↔ ReachesFile p t q :=
  read_folder_mem_aux p t q

/-- The scan loop distributes over appending child lists. -/
theorem scan_entries_append (p : FsPath) (as bs : List Entry) :
    scan_entries p (as ++ bs) =
      ((scan_entries p as).1 ++ (scan_entries p bs).1,
       (scan_entries p as).2 ++ (scan_entries p bs).2) := by
  induction as with
  | nil => simp [scan_entries]
  | cons e rest ih =>
    rw [List.cons_append, scan_entries, scan_entries, ih]
    simp [List.append_assoc]

/-- C5: a traversal in which reading one subdirectory fails returns normally
(no exception reaches the caller), logs exactly that subdirectory's path,
keeps every file discovered from the siblings before and after it, and
contains nothing from below the unreadable subdirectory. -/
theorem read_folder_unreadable_subdir (p : FsPath) (n m : Filename)
    (as bs cs : List Entry) :
    read_folder p (.dir n true (as ++ Entry.dir m false cs :: bs)) =
      ((scan_entries p as).1 ++ (scan_entries p bs).1,
       (scan_entries p as).2 ++ (p ++ [m]) :: (scan_entries p bs).2) := by
  rw [read_folder, if_pos rfl, scan_entries_append, scan_entries]
  rw [show walk_child p (Entry.dir m false cs) = ([], [p ++ [m]]) from rfl]
  simp

/-- The target-side filesystem state: the directories that exist and the
files, an association list from path to content in which the most recent
write stands first. -/
structure FS where
  dirs : List FsPath
  files : List (FsPath × Content)
deriving DecidableEq

/-- The content of the file at `q`, if one exists. -/
def lookupFile (fs : FS) (q : FsPath) : Option Content :=
  (fs.files.find? (fun pc => pc.1 = q)).map Prod.snd

/-- A path together with every ancestor directory of it. -/
def ancestors : FsPath → List FsPath
  | [] => [[]]
  | d :: ds => [] :: (ancestors ds).map (fun q => d :: q)

/-- What `os.makedirs` creates when the path does not exist: the directory
and all of its missing ancestors. -/
def mkdirAll (fs : FS) (q : FsPath) : FS :=
  { fs with dirs := ancestors q ++ fs.dirs }

/-- `os.makedirs(q, exist_ok)`: an already existing directory is an error
unless `exist_ok` is set, in which case it is success and nothing changes; a
missing directory is created together with its missing ancestors. -/
def makedirs (fs : FS) (q : FsPath) (exist_ok : Bool) : Except Unit FS :=
  if q ∈ fs.dirs then
    if exist_ok then .ok fs else .error ()
  else .ok (mkdirAll fs q)

/-- The fate the environment deals one file's copy task: `ok` (all its I/O
succeeds), `mkdirFail` (the `os.makedirs` call raises, e.g. permission denied
under the target root), or `readFail` (`os.makedirs` succeeds but the
read of the source — or equally the opening of the destination — raises;
the bucket directory has been created by that point). -/
inductive FailMode where
  | ok : FailMode
  | mkdirFail : FailMode
  | readFail : FailMode
deriving DecidableEq

/-- One file as the Dispatcher consumes it: its final name component
(`file_path.name`), the bytes read from it, and the injected failure mode of
its task's I/O. -/
structure SrcFile where
  name : Filename
  content : Content
  fail : FailMode
deriving DecidableEq

/-- One line of the log stream. -/
inductive LogEvent where
  | folderError (q : FsPath) : LogEvent
  | copied (name : Filename) : LogEvent
  | copyError (name : Filename) : LogEvent
  | found (n : Nat) : LogEvent
  | done : LogEvent
  | fatal : LogEvent
deriving DecidableEq

/-- Embedding of `copy_file` (lines 43-75): derive the bucket name from the
filename suffix, create the bucket directory with `os.makedirs(ext_dir,
exist_ok=True)`, then read the whole source and write its bytes to
`ext_dir / file_path.name`, overwriting any previous file at that path; any
exception on the way is caught by the surrounding `try` and logged as this
one file's copy failure, leaving everything else untouched. -/
def copy_file (target_dir : FsPath) (f : SrcFile) (fs : FS) : FS × LogEvent :=
  let ext_dir := target_dir ++ [file_ext f.name]
  if f.fail = .mkdirFail then (fs, .copyError f.name)
  else
    match makedirs fs ext_dir true with
    | .error _ => (fs, .copyError f.name)
    | .ok fs1 =>
      if f.fail = .readFail then (fs1, .copyError f.name)
      else ({ fs1 with files := (ext_dir ++ [f.name], f.content) :: fs1.files },
            .copied f.name)

/-- The destination path `copy_file` writes `f` to. -/
def destOf (target_dir : FsPath) (f : SrcFile) : FsPath :=
  (target_dir ++ [file_ext f.name]) ++ [f.name]

/-- The log line a file's task ends with. -/
def outcomeOf (f : SrcFile) : LogEvent :=
  if f.fail = .ok then .copied f.name else .copyError f.name

/-- The fan-out of lines 90-91 (`tasks = [copy_file(...) for ...]` followed
by `await asyncio.gather(*tasks)`), as one serialization of the single-thread
event loop: every file's task runs to its own completion and the batch ends
only after the last of them. -/
def gather_copy (target_dir : FsPath) (files : List SrcFile) (fs : FS) :
    FS × List LogEvent :=
  match files with
  | [] => (fs, [])
  | f :: rest =>
    let r := copy_file target_dir f fs
    let r2 := gather_copy target_dir rest r.1
    (r2.1, r.2 :: r2.2)

/-- A discovered file paired with the failure mode the environment assigns to
the task that will copy it. -/
def toSrcFile (failOf : FsPath → FailMode) (ff : FoundFile) : SrcFile :=
  ⟨ff.name, ff.content, failOf ff.path⟩

/-- Embedding of `process_files` (lines 77-93): walk the source tree, log the
count of discovered files, run every file's copy task, log completion. -/
def process_files (p : FsPath) (t : Entry) (failOf : FsPath → FailMode)
    (target_dir : FsPath) (fs : FS) : FS × List LogEvent :=
  let r := read_folder p t
  let files := r.1.map (toSrcFile failOf)
  let g := gather_copy target_dir files fs
  (g.1, r.2.map LogEvent.folderError ++ [LogEvent.found files.length] ++ g.2 ++
    [LogEvent.done])

/-- What the `--source` argument denotes: a missing path, an existing
path that is not a directory, or an existing directory (its full path and its
tree). -/
inductive SourceArg where
  | missing : SourceArg
  | notDir : SourceArg
  | dirTree (p : FsPath) (t : Entry) : SourceArg

/-- Embedding of `main` (lines 95-132): a missing or non-directory source is
reported with a single fatal log line and nothing else happens; otherwise the
target root is created with `os.makedirs(target_dir, exist_ok=True)` (which
cannot report an existing directory as an error) and `process_files` runs. -/
def main (src : SourceArg) (failOf : FsPath → FailMode) (target_dir : FsPath)
    (fs : FS) : FS × List LogEvent :=
  match src with
  | .missing => (fs, [.fatal])
  | .notDir => (fs, [.fatal])
  | .dirTree p t =>
    match makedirs fs target_dir true with
    | .error _ => (fs, [])
    | .ok fs1 => process_files p t failOf target_dir fs1

theorem makedirs_true_ok (fs : FS) (q : FsPath) :
    makedirs fs q true = Except.ok (if q ∈ fs.dirs then fs else mkdirAll fs q) := by
  unfold makedirs
  by_cases h : q ∈ fs.dirs <;> simp [h]

/-- Every path lies in its own ancestor list. -/
theorem self_mem_ancestors (q : FsPath) : q ∈ ancestors q := by
  induction q with
  | nil => simp [ancestors]
  | cons d ds ih =>
    rw [ancestors, List.mem_cons]
    right
    rw [List.mem_map]
    exact ⟨ds, ih, rfl⟩

/-- Ancestors of a one-component extension of a path. -/
theorem ancestors_append_single (xs : FsPath) (x : Filename) :
    ancestors (xs ++ [x]) = ancestors xs ++ [xs ++ [x]] := by
  induction xs with
  | nil => rfl
  | cons d ds ih =>
    rw [List.cons_append, ancestors, ih, ancestors]
    simp

/-- How one `copy_file` run changes the stored files. -/
theorem copy_file_lookup (target_dir : FsPath) (f : SrcFile) (fs : FS) (q : FsPath) :
    lookupFile (copy_file target_dir f fs).1 q =
      if f.fail = .ok ∧ destOf target_dir f = q then some f.content
      else lookupFile fs q := by
  unfold copy_file destOf
  cases hf : f.fail with
  | mkdirFail => simp
  | readFail =>
    simp only [makedirs_true_ok]
    by_cases hd : target_dir ++ [file_ext f.name] ∈ fs.dirs <;>
      simp [hd, mkdirAll, lookupFile]
  | ok =>
    simp only [makedirs_true_ok]
    by_cases hd : target_dir ++ [file_ext f.name] ∈ fs.dirs <;>
      by_cases hq : target_dir ++ [file_ext f.name, f.name] = q <;>
      simp [hd, hq, mkdirAll, lookupFile, List.find?]

/-- The log line of one `copy_file` run depends only on the file itself. -/
theorem copy_file_log (target_dir : FsPath) (f : SrcFile) (fs : FS) :
    (copy_file target_dir f fs).2 = outcomeOf f := by
  unfold copy_file outcomeOf
  cases hf : f.fail with
  | mkdirFail => simp
  | readFail => simp only [makedirs_true_ok]; simp
  | ok => simp only [makedirs_true_ok]; simp

/-- A file whose task's `os.makedirs` raises changes nothing. -/
theorem copy_file_mkdirFail (target_dir : FsPath) (f : SrcFile) (fs : FS)
    (h : f.fail = .mkdirFail) :
    (copy_file target_dir f fs).1 = fs := by
  unfold copy_file
  simp [h]

/-- The directories after one `copy_file` run whose `os.makedirs` call did
not raise. -/
theorem copy_file_dirs (target_dir : FsPath) (f : SrcFile) (fs : FS)
    (h : f.fail ≠ .mkdirFail) :
    (copy_file target_dir f fs).1.dirs =
      if target_dir ++ [file_ext f.name] ∈ fs.dirs then fs.dirs
      else ancestors (target_dir ++ [file_ext f.name]) ++ fs.dirs := by
  unfold copy_file
  simp only [if_neg h, makedirs_true_ok]
  by_cases hd : target_dir ++ [file_ext f.name] ∈ fs.dirs <;>
    cases hf : f.fail <;> simp_all [mkdirAll]

/-- `copy_file` never removes a directory. -/
theorem copy_file_dirs_mono (target_dir : FsPath) (f : SrcFile) (fs : FS)
    {d : FsPath} (h : d ∈ fs.dirs) : d ∈ (copy_file target_dir f fs).1.dirs := by
  by_cases hf : f.fail = .mkdirFail
  · rw [copy_file_mkdirFail target_dir f fs hf]; exact h
  · rw [copy_file_dirs target_dir f fs hf]
    by_cases hd : target_dir ++ [file_ext f.name] ∈ fs.dirs <;>
      simp [hd, h]

/-- `gather_copy` never removes a directory. -/
theorem gather_copy_dirs_mono (target_dir : FsPath) (files : List SrcFile) (fs : FS)
    {d : FsPath} (h : d ∈ fs.dirs) : d ∈ (gather_copy target_dir files fs).1.dirs := by
  induction files generalizing fs with
  | nil => exact h
  | cons f rest ih =>
    rw [gather_copy]
    exact ih _ (copy_file_dirs_mono target_dir f fs h)

/-- The batch log: one outcome line per file, in order, each a function of
that file alone. -/
theorem gather_copy_log (target_dir : FsPath) (files : List SrcFile) (fs : FS) :
    (gather_copy target_dir files fs).2 = files.map outcomeOf := by
  induction files generalizing fs with
  | nil => rfl
  | cons f rest ih =>
    rw [gather_copy, List.map_cons]
    rw [copy_file_log, ih]

/-- The content of the last successful write a batch makes to `q`, if any:
later files shadow earlier ones. -/
def lastWrite (target_dir : FsPath) (files : List SrcFile) (q : FsPath) :
    Option Content :=
  match files with
  | [] => none
  | f :: rest =>
    match lastWrite target_dir rest q with
    | some c => some c
    | none => if f.fail = .ok ∧ destOf target_dir f = q then some f.content else none

/-- First-defined choice between a batch's writes and the prior content. -/
def overlay (o x : Option Content) : Option Content :=
  match o with
  | some c => some c
  | none => x

/-- The content the batch leaves at `q`: the last successful write to `q`, or
whatever was there before. -/
theorem gather_copy_lookup (target_dir : FsPath) (files : List SrcFile) (fs : FS)
    (q : FsPath) :
    lookupFile (gather_copy target_dir files fs).1 q =
      overlay (lastWrite target_dir files q) (lookupFile fs q) := by
  induction files generalizing fs with
  | nil => rfl
  | cons f rest ih =>
    rw [gather_copy, lastWrite, ih, copy_file_lookup]
    cases hlw : lastWrite target_dir rest q with
    | some c => simp [overlay]
    | none =>
      by_cases hcond : f.fail = .ok ∧ destOf target_dir f = q <;>
        simp [overlay, hcond]

/-- A batch that made no successful write to `q` contains no successful task
targeting `q`. -/
theorem lastWrite_none (target_dir : FsPath) (files : List SrcFile) (q : FsPath)
    (h : lastWrite target_dir files q = none) :
    ∀ f ∈ files, f.fail = .ok → destOf target_dir f ≠ q := by
  induction files with
  | nil => intro f hf; simp at hf
  | cons g rest ih =>
    rw [lastWrite] at h
    cases hlw : lastWrite target_dir rest q with
    | some c => rw [hlw] at h; cases h
    | none =>
      rw [hlw] at h
      intro f hf hok
      rcases List.mem_cons.mp hf with rfl | hf'
      · intro hdest
        rw [if_pos ⟨hok, hdest⟩] at h
        cases h
      · exact ih hlw f hf' hok

/-- The last successful write to `q` is the content of a successful file of
the batch whose destination is `q`. -/
theorem lastWrite_some (target_dir : FsPath) (files : List SrcFile) (q : FsPath)
    (c : Content) (h : lastWrite target_dir files q = some c) :
    ∃ f ∈ files, f.fail = .ok ∧ destOf target_dir f = q ∧ f.content = c := by
  induction files with
  | nil => cases h
  | cons g rest ih =>
    rw [lastWrite] at h
    cases hlw : lastWrite target_dir rest q with
    | some c' =>
      rw [hlw] at h
      cases h
      obtain ⟨f, hf, hok, hdest, hc⟩ := ih hlw
      exact ⟨f, List.mem_cons_of_mem g hf, hok, hdest, hc⟩
    | none =>
      rw [hlw] at h
      by_cases hcond : g.fail = .ok ∧ destOf target_dir g = q
      · rw [if_pos hcond] at h
        cases h
        exact ⟨g, List.mem_cons_self g rest, hcond.1, hcond.2, rfl⟩
      · rw [if_neg hcond] at h
        cases h

/-- Membership in the ancestors of a one-component extension. -/
theorem mem_ancestors_append_single {d : FsPath} (xs : FsPath) (x : Filename) :
    d ∈ ancestors (xs ++ [x]) ↔ d ∈ ancestors xs ∨ d = xs ++ [x] := by
  rw [ancestors_append_single, List.mem_append, List.mem_singleton]

/-- The state component of `process_files` is the gather over the discovered
files. -/
theorem process_files_fs (p : FsPath) (t : Entry) (failOf : FsPath → FailMode)
    (target_dir : FsPath) (fs : FS) :
    (process_files p t failOf target_dir fs).1 =
      (gather_copy target_dir ((read_folder p t).1.map (toSrcFile failOf)) fs).1 := rfl

/-- The directories after a batch, provided the target root and its ancestors
already exist: exactly the old ones plus one bucket per file whose
`os.makedirs` call ran (and so did not fail), named by its extension key. -/
theorem gather_copy_dirs_mem (target_dir : FsPath) (files : List SrcFile) (fs : FS)
    (hanc : ∀ q ∈ ancestors target_dir, q ∈ fs.dirs) (d : FsPath) :
    d ∈ (gather_copy target_dir files fs).1.dirs ↔
      d ∈ fs.dirs ∨ ∃ f ∈ files, f.fail ≠ .mkdirFail ∧
        d = target_dir ++ [file_ext f.name] := by
  induction files generalizing fs with
  | nil => simp [gather_copy]
  | cons f rest ih =>
    rw [gather_copy]
    have hanc1 : ∀ q ∈ ancestors target_dir, q ∈ (copy_file target_dir f fs).1.dirs :=
      fun q hq => copy_file_dirs_mono target_dir f fs (hanc q hq)
    rw [ih _ hanc1]
    have hstep : d ∈ (copy_file target_dir f fs).1.dirs ↔
        d ∈ fs.dirs ∨ (f.fail ≠ .mkdirFail ∧ d = target_dir ++ [file_ext f.name]) := by
      by_cases hf : f.fail = .mkdirFail
      · rw [copy_file_mkdirFail target_dir f fs hf]
        simp [hf]
      · rw [copy_file_dirs target_dir f fs hf]
        by_cases hd : target_dir ++ [file_ext f.name] ∈ fs.dirs
        · rw [if_pos hd]
          constructor
          · exact Or.inl
          · rintro (h | ⟨-, rfl⟩)
            · exact h
            · exact hd
        · rw [if_neg hd, List.mem_append, mem_ancestors_append_single]
          constructor
          · rintro ((ha | rfl) | h)
            · exact Or.inl (hanc d ha)
            · exact Or.inr ⟨hf, rfl⟩
            · exact Or.inl h
          · rintro (h | ⟨-, rfl⟩)
            · exact Or.inr h
            · exact Or.inl (Or.inr rfl)
    rw [hstep]
    rw [List.exists_mem_cons_iff (fun g => g.fail ≠ FailMode.mkdirFail ∧
      d = target_dir ++ [file_ext g.name]) f rest]
    tauto

/-- A batch whose buckets all already exist creates no directory at all. -/
theorem gather_copy_dirs_eq (target_dir : FsPath) (files : List SrcFile) (fs : FS)
    (h : ∀ f ∈ files, f.fail ≠ .mkdirFail → target_dir ++ [file_ext f.name] ∈ fs.dirs) :
    (gather_copy target_dir files fs).1.dirs = fs.dirs := by
  induction files generalizing fs with
  | nil => rfl
  | cons f rest ih =>
    rw [gather_copy]
    have hstep : (copy_file target_dir f fs).1.dirs = fs.dirs := by
      by_cases hf : f.fail = .mkdirFail
      · rw [copy_file_mkdirFail target_dir f fs hf]
      · rw [copy_file_dirs target_dir f fs hf,
          if_pos (h f (List.mem_cons_self f rest) hf)]
    have hrest : ∀ g ∈ rest, g.fail ≠ .mkdirFail →
        target_dir ++ [file_ext g.name] ∈ (copy_file target_dir f fs).1.dirs := by
      intro g hg hgf
      rw [hstep]
      exact h g (List.mem_cons_of_mem f hg) hgf
    rw [ih _ hrest, hstep]

/-- After a batch, the bucket of every file whose `os.makedirs` call ran
exists. -/
theorem gather_copy_ext_mem (target_dir : FsPath) (files : List SrcFile) (fs : FS) :
    ∀ g ∈ files, g.fail ≠ .mkdirFail →
      target_dir ++ [file_ext g.name] ∈ (gather_copy target_dir files fs).1.dirs := by
  induction files generalizing fs with
  | nil => intro g hg; simp at hg
  | cons f rest ih =>
    intro g hg hgf
    rw [gather_copy]
    rcases List.mem_cons.mp hg with rfl | hg'
    · have hmem : target_dir ++ [file_ext g.name] ∈ (copy_file target_dir g fs).1.dirs := by
        rw [copy_file_dirs target_dir g fs hgf]
        by_cases hd : target_dir ++ [file_ext g.name] ∈ fs.dirs
        · rw [if_pos hd]; exact hd
        · rw [if_neg hd, List.mem_append]
          exact Or.inl (self_mem_ancestors _)
      exact gather_copy_dirs_mono target_dir rest _ hmem
    · exact ih _ g hg' hgf

theorem overlay_idem (o x : Option Content) : overlay o (overlay o x) = overlay o x := by
  cases o <;> rfl

/-- C4: `process_files` runs every discovered file's copy task to completion
and returns only then: its log stream is the folder-read failures, the count
line, then EXACTLY one outcome line per discovered file, in order — each
outcome a function of that file alone, so one file's failure (caught inside
its own task) cannot cancel, block or alter any other file's processing —
and the completion line last.  No early exit on a failure is possible. -/
theorem process_files_no_early_exit (p : FsPath) (t : Entry)
    (failOf : FsPath → FailMode) (target_dir : FsPath) (fs : FS) :
    (process_files p t failOf target_dir fs).2 =
      (read_folder p t).2.map LogEvent.folderError ++
        [LogEvent.found ((read_folder p t).1.map (toSrcFile failOf)).length] ++
        ((read_folder p t).1.map (toSrcFile failOf)).map outcomeOf ++
        [LogEvent.done] := by
  simp only [process_files]
  rw [gather_copy_log]

/-- C8: running the Dispatcher twice with the same source files, failure
environment and target root leaves the same destination content as running
it once: the directories are identical and every path holds the same bytes. -/
theorem dispatcher_idempotent (p : FsPath) (t : Entry) (failOf : FsPath → FailMode)
    (target_dir : FsPath) (fs : FS) :
    ((process_files p t failOf target_dir
        (process_files p t failOf target_dir fs).1).1.dirs =
      (process_files p t failOf target_dir fs).1.dirs) ∧
    ∀ q, lookupFile (process_files p t failOf target_dir
        (process_files p t failOf target_dir fs).1).1 q =
      lookupFile (process_files p t failOf target_dir fs).1 q := by
  constructor
  · rw [process_files_fs p t failOf target_dir]
    exact gather_copy_dirs_eq target_dir _ _
      (fun g hg hgf => by
        rw [process_files_fs]
        exact gather_copy_ext_mem target_dir _ fs g hg hgf)
  · intro q
    rw [process_files_fs p t failOf target_dir, process_files_fs p t failOf target_dir,
      gather_copy_lookup, gather_copy_lookup, overlay_idem]

/-- C1: if no failure was logged for a discovered file `ff` (its task's I/O
all succeeded) and no other discovered file shares its destination with a
different content, then after `process_files` completes the destination
`target/ext/basename` holds exactly `ff`'s original bytes — whatever file may
have existed there before is overwritten without warning (the initial state
`fs` is arbitrary). -/
theorem copy_preserves_content (p : FsPath) (t : Entry) (failOf : FsPath → FailMode)
    (target_dir : FsPath) (fs : FS) (ff : FoundFile)
    (hmem : ff ∈ (read_folder p t).1)
    (hok : failOf ff.path = .ok)
    (huniq : ∀ gg ∈ (read_folder p t).1, gg.name = ff.name → gg.content = ff.content) :
    lookupFile (process_files p t failOf target_dir fs).1
      ((target_dir ++ [file_ext ff.name]) ++ [ff.name]) = some ff.content := by
  rw [process_files_fs, gather_copy_lookup]
  have hF : toSrcFile failOf ff ∈ (read_folder p t).1.map (toSrcFile failOf) :=
    List.mem_map_of_mem _ hmem
  cases hlw : lastWrite target_dir ((read_folder p t).1.map (toSrcFile failOf))
      ((target_dir ++ [file_ext ff.name]) ++ [ff.name]) with
  | none =>
    exact absurd rfl
      (lastWrite_none target_dir _ _ hlw (toSrcFile failOf ff) hF hok)
  | some c =>
    obtain ⟨g, hg, hgok, hgdest, hgc⟩ := lastWrite_some target_dir _ _ c hlw
    obtain ⟨gg, hgg, rfl⟩ := List.mem_map.mp hg
    have hname : gg.name = ff.name := by
      have h2 := hgdest
      simp [destOf, toSrcFile, List.append_assoc] at h2
      exact h2.2
    have hcontent : gg.content = ff.content := huniq gg hgg hname
    rw [← hgc]
    show some (toSrcFile failOf gg).content = some ff.content
    rw [show (toSrcFile failOf gg).content = gg.content from rfl, hcontent]

/-- C1, witness: one source file `a.txt` with bytes `[1, 2]`, a target whose
destination already holds `[9]`: after the run the destination holds
`[1, 2]` — the stale file was overwritten. -/
theorem copy_preserves_content_witness :
    lookupFile (process_files ["s".toList]
        (Entry.dir "s".toList true [Entry.file "a.txt".toList [1, 2]])
        (fun _ => FailMode.ok) ["t".toList]
        ⟨[], [((["t".toList] ++ [file_ext "a.txt".toList]) ++ ["a.txt".toList], [9])]⟩).1
      ((["t".toList] ++ [file_ext "a.txt".toList]) ++ ["a.txt".toList]) =
      some [1, 2] :=
  copy_preserves_content ["s".toList]
    (Entry.dir "s".toList true [Entry.file "a.txt".toList [1, 2]])
    (fun _ => FailMode.ok) ["t".toList]
    ⟨[], [((["t".toList] ++ [file_ext "a.txt".toList]) ++ ["a.txt".toList], [9])]⟩
    ⟨["s".toList, "a.txt".toList], "a.txt".toList, [1, 2]⟩
    (by decide) (by decide) (by decide)

/-- A filesystem in which every existing directory's ancestors also exist
(true of any real directory tree). -/
def DirClosed (fs : FS) : Prop :=
  ∀ d ∈ fs.dirs, ∀ q ∈ ancestors d, q ∈ fs.dirs

/-- C6: on a missing or non-directory source, `main` emits exactly one fatal
log line, leaves the filesystem untouched (in particular the target root is
not created) and performs no traversal or copy work; on a valid source it
first creates the target root, including any missing ancestors, without
touching any file, and only then runs `process_files` on that state. -/
theorem main_source_validation (failOf : FsPath → FailMode) (target_dir : FsPath)
    (fs : FS) (p : FsPath) (t : Entry) (hfs : DirClosed fs) :
    main .missing failOf target_dir fs = (fs, [.fatal]) ∧
    main .notDir failOf target_dir fs = (fs, [.fatal]) ∧
    ∃ fs1, makedirs fs target_dir true = Except.ok fs1 ∧
      (∀ q ∈ ancestors target_dir, q ∈ fs1.dirs) ∧
      fs1.files = fs.files ∧
      main (.dirTree p t) failOf target_dir fs =
        process_files p t failOf target_dir fs1 := by
  refine ⟨rfl, rfl, if target_dir ∈ fs.dirs then fs else mkdirAll fs target_dir,
    makedirs_true_ok fs target_dir, ?_, ?_, ?_⟩
  · intro q hq
    by_cases hd : target_dir ∈ fs.dirs
    · rw [if_pos hd]
      exact hfs target_dir hd q hq
    · rw [if_neg hd]
      show q ∈ ancestors target_dir ++ fs.dirs
      exact List.mem_append.mpr (Or.inl hq)
  · by_cases hd : target_dir ∈ fs.dirs <;> simp [hd, mkdirAll]
  · simp only [main, makedirs_true_ok]

/-- C6, witness: on the empty filesystem, a missing source produces exactly
one fatal log line and changes nothing. -/
theorem main_source_validation_witness :
    main SourceArg.missing (fun _ => FailMode.ok) ["t".toList] ⟨[], []⟩ =
      (⟨[], []⟩, [LogEvent.fatal]) :=
  (main_source_validation (fun _ => FailMode.ok) ["t".toList] ⟨[], []⟩
    ["s".toList] (Entry.dir "s".toList true [])
    (fun d hd => absurd hd (List.not_mem_nil d))).1

/-- C7 (amended): with the target root and its ancestors already existing (as
`main` guarantees before processing), the directories after the Dispatcher
are exactly the old ones plus one bucket for each distinct extension key
among the files whose bucket-creation step ran — bucket creation precedes
the read, so a file whose read or write subsequently fails still leaves its
bucket — and no other directory ever appears. -/
theorem buckets_match_keys (p : FsPath) (t : Entry) (failOf : FsPath → FailMode)
    (target_dir : FsPath) (fs : FS)
    (hanc : ∀ q ∈ ancestors target_dir, q ∈ fs.dirs) (d : FsPath) :
    d ∈ (process_files p t failOf target_dir fs).1.dirs ↔
      d ∈ fs.dirs ∨ ∃ ff ∈ (read_folder p t).1, failOf ff.path ≠ .mkdirFail ∧
        d = target_dir ++ [file_ext ff.name] := by
  rw [process_files_fs, gather_copy_dirs_mem target_dir _ fs hanc d]
  apply or_congr_right
  constructor
  · rintro ⟨g, hg, hgf, rfl⟩
    obtain ⟨ff, hff, rfl⟩ := List.mem_map.mp hg
    exact ⟨ff, hff, hgf, rfl⟩
  · rintro ⟨ff, hff, hgf, rfl⟩
    exact ⟨toSrcFile failOf ff, List.mem_map_of_mem _ hff, hgf, rfl⟩

/-- C7, witness: copying the single file `a.txt` into a target root that
already exists creates the bucket `txt` under it. -/
theorem buckets_match_keys_witness :
    (["t".toList] ++ [file_ext "a.txt".toList]) ∈
      (process_files ["s".toList]
        (Entry.dir "s".toList true [Entry.file "a.txt".toList [1]])
        (fun _ => FailMode.ok) ["t".toList] ⟨ancestors ["t".toList], []⟩).1.dirs :=
  (buckets_match_keys ["s".toList]
    (Entry.dir "s".toList true [Entry.file "a.txt".toList [1]])
    (fun _ => FailMode.ok) ["t".toList] ⟨ancestors ["t".toList], []⟩
    (by decide) (["t".toList] ++ [file_ext "a.txt".toList])).mpr
    (Or.inr ⟨⟨["s".toList, "a.txt".toList], "a.txt".toList, [1]⟩,
      by decide, by decide, rfl⟩)

/-- C7, counterexample: a single source file whose read fails after its
bucket was created.  No file is copied (the log carries no success line and
the target holds no file at all), yet the bucket `txt` exists — so the set of
buckets created is NOT the set of extension keys among copied files, which is
empty. -/
theorem bucket_without_copy_counterexample :
    ((["t".toList] ++ [file_ext "a.txt".toList]) ∈
      (process_files ["s".toList]
        (Entry.dir "s".toList true [Entry.file "a.txt".toList [1]])
        (fun _ => FailMode.readFail) ["t".toList]
        ⟨ancestors ["t".toList], []⟩).1.dirs) ∧
    ((process_files ["s".toList]
        (Entry.dir "s".toList true [Entry.file "a.txt".toList [1]])
        (fun _ => FailMode.readFail) ["t".toList]
        ⟨ancestors ["t".toList], []⟩).1.files = []) ∧
    ((process_files ["s".toList]
        (Entry.dir "s".toList true [Entry.file "a.txt".toList [1]])
        (fun _ => FailMode.readFail) ["t".toList]
        ⟨ancestors ["t".toList], []⟩).2 =
      [LogEvent.found 1, LogEvent.copyError "a.txt".toList, LogEvent.done]) := by
  refine ⟨?_, ?_, ?_⟩ <;> decide

/-- C9: the bucket-creation call of `copy_file` — `os.makedirs(ext_dir,
exist_ok=True)`, which concurrent tasks sharing an extension key may issue
redundantly — treats an already existing directory as success: it returns
the state unchanged with no error, and `copy_file` then changes no directory
at all. -/
theorem bucket_creation_idempotent (target_dir : FsPath) (f : SrcFile) (fs : FS)
    (h : target_dir ++ [file_ext f.name] ∈ fs.dirs) :
    makedirs fs (target_dir ++ [file_ext f.name]) true = Except.ok fs ∧
    (copy_file target_dir f fs).1.dirs = fs.dirs := by
  constructor
  · unfold makedirs
    rw [if_pos h]
    simp
  · by_cases hf : f.fail = .mkdirFail
    · rw [copy_file_mkdirFail target_dir f fs hf]
    · rw [copy_file_dirs target_dir f fs hf, if_pos h]

/-- C9, witness: creating the bucket `txt` when it already exists succeeds
and changes nothing. -/
theorem bucket_creation_idempotent_witness :
    makedirs ⟨[["t".toList] ++ [file_ext "a.txt".toList]], []⟩
      (["t".toList] ++ [file_ext "a.txt".toList]) true =
      Except.ok ⟨[["t".toList] ++ [file_ext "a.txt".toList]], []⟩ :=
  (bucket_creation_idempotent ["t".toList] ⟨"a.txt".toList, [1], FailMode.ok⟩
    ⟨[["t".toList] ++ [file_ext "a.txt".toList]], []⟩ (by decide)).1

end FileSorter
